import Mathlib

/-!
Verification of the ingredient-matching logic of the recipe-dashboard
repository (`src/components/recipe-dashboard.tsx`, plus an earlier revision
of the same component).

The embedding models JavaScript strings as `List Char` (a Lean `String` is
converted at the boundary via `String.data`).  The model is faithful on the
ASCII range: `toLowerCase`, the regex classes `\w`/`\b` (which are the ASCII
set `[A-Za-z0-9_]` in JavaScript, also in non-unicode mode) and `split(' ')`
agree with the Lean definitions below on ASCII text.  Numeric data fields of
recipes (quantities, nutrient amounts, ...) are opaque to the matcher — it
only copies them — and are modelled as integers.  JavaScript exceptions are
modelled by `Option`: `none` is a thrown exception (every model combinator
below short-circuits exactly where the JavaScript evaluation order would
stop evaluating).
-/

namespace RecipeDash

/-! ## JavaScript string primitives on `List Char` -/

/-- The JavaScript regex word class `\w`, i.e. `[A-Za-z0-9_]`. -/
def isWordChar (c : Char) : Bool := c.isAlpha || c.isDigit || c == '_'

/-- `charAt i` classified by `\w`; positions outside the string count as
non-word, as JavaScript's `\b` treats the edges of the input. -/
def isWordAt (s : List Char) (i : Nat) : Bool :=
  match s.get? i with
  | some c => isWordChar c
  | none => false

/-- The regex assertion `\b` holds at position `i` of `s` iff exactly one of
the two neighbouring positions holds a word character. -/
def boundaryAt (s : List Char) (i : Nat) : Bool :=
  (decide (0 < i) && isWordAt s (i - 1)) != isWordAt s i

/-- `w` occurs literally in `s` starting at position `i`. -/
def occursAt (w s : List Char) (i : Nat) : Bool :=
  decide ((s.drop i).take w.length = w)

/-- Semantics of `s.match(new RegExp("\\b" + w + "\\b"))` being truthy, for a
word `w` that the regex engine treats literally: some position carries a
literal occurrence of `w` flanked by word boundaries. -/
def wbMatch (w s : List Char) : Bool :=
  (List.range (s.length + 1)).any fun i =>
    occursAt w s i && boundaryAt s i && boundaryAt s (i + w.length)

/-- Semantics of JavaScript `s.includes(sub)`: `sub` occurs somewhere in `s`
(`s.includes("")` is `true`). -/
def strIncludes (s sub : List Char) : Bool :=
  (List.range (s.length + 1)).any fun i => occursAt sub s i

/-- `toLowerCase` (ASCII-faithful). -/
def lowerChars (s : List Char) : List Char := s.map Char.toLower

/-- JavaScript `s.split(' ')`: split at every single space, keeping empty
pieces (`"".split(' ')` is `[""]`, `"a  b".split(' ')` is `["a","","b"]`). -/
def splitSpace : List Char → List (List Char)
  | [] => [[]]
  | c :: cs =>
    match splitSpace cs with
    | [] => [[]]
    | w :: ws => if c = ' ' then [] :: w :: ws else (c :: w) :: ws

/-- The characters that are special in a JavaScript regular expression
pattern.  A user word containing one of these, interpolated into
`"\\b" + word + "\\b"`, does not denote a literal match of the word: for
some of them (an unmatched `(` or `[`) `new RegExp` throws a `SyntaxError`,
for the others the pattern's meaning changes. -/
def regexMetaChars : List Char :=
  ['\\', '^', '$', '.', '|', '?', '*', '+', '(', ')', '[', ']', '\x7b', '\x7d']

/-- A word that the regex engine treats as a literal string. -/
def regexSafeWord (w : List Char) : Bool :=
  w.all fun c => !(regexMetaChars.contains c)

/-- `new RegExp("\\b" + w + "\\b")` followed by `s.match(...)`: defined
(literal word-boundary matching) only for words without regex
metacharacters; `none` models the non-literal cases, in particular the
thrown `SyntaxError` (e.g. `w = "("` yields the invalid pattern). -/
def mkWordRegexTest (w s : List Char) : Option Bool :=
  if regexSafeWord w then some (wbMatch w s) else none

/-! ## JavaScript array combinators over a possibly-throwing callback

`none` models a thrown exception; each combinator evaluates its callback
left to right and stops exactly where JavaScript would
(`some` stops at the first `true`, `every` at the first `false`,
`filter` and `map` visit every element). -/

def jsSome (p : α → Option Bool) : List α → Option Bool
  | [] => some false
  | a :: l =>
    match p a with
    | none => none
    | some true => some true
    | some false => jsSome p l

def jsEvery (p : α → Option Bool) : List α → Option Bool
  | [] => some true
  | a :: l =>
    match p a with
    | none => none
    | some false => some false
    | some true => jsEvery p l

def jsFilter (p : α → Option Bool) : List α → Option (List α)
  | [] => some []
  | a :: l =>
    match p a with
    | none => none
    | some b =>
      match jsFilter p l with
      | none => none
      | some out => some (if b then a :: out else out)

def jsMapList (f : α → Option β) : List α → Option (List β)
  | [] => some []
  | a :: l =>
    match f a with
    | none => none
    | some b =>
      match jsMapList f l with
      | none => none
      | some out => some (b :: out)

/-! ## Data model (`recipe-dashboard.tsx`) -/

structure Nutrient where
  amount : Int
  unit : String
deriving DecidableEq

structure Ingredient where
  name : String
  quantity : Int
  unit : String
deriving DecidableEq

structure Recipe where
  name : String
  servings : Int
  calories : Int
  fat : Nutrient
  carbs : Nutrient
  protein : Nutrient
  ingredients : List Ingredient
  instructions : List String
deriving DecidableEq

/-- A JavaScript `number` as far as this component produces one: the matcher
only ever divides the integers `matchedCount / totalCount`, so the possible
values are exact rationals, `NaN` (from `0/0`) and the two infinities.  For
the catalog sizes at hand rational division is exactly what IEEE division
compares as. -/
inductive JsNumber where
  | nan : JsNumber
  | inf : JsNumber
  | ninf : JsNumber
  | val : ℚ → JsNumber
deriving DecidableEq

/-- `calculateScore` from `recipe-dashboard.tsx` (the active, linear
variant): `return matched / total;` with JavaScript division semantics on
integer inputs. -/
def calculateScore (matched : Int) (total : Int) : JsNumber :=
  if total = 0 then
    if matched = 0 then JsNumber.nan
    else if 0 < matched then JsNumber.inf
    else JsNumber.ninf
  else JsNumber.val ((matched : ℚ) / (total : ℚ))

structure RecipeWithMatch extends Recipe where
  missingCount : Nat
  matchedCount : Int
  totalCount : Nat
  score : JsNumber
  missingIngredients : List (List Char)
deriving DecidableEq

/-! ## The matcher (`getRecipeMatches`, word-boundary revision) -/

/-- `userWords.every(userWord => recipeIngredient.match(new RegExp(...)))`
for `userWords = userIngredient.toLowerCase().split(' ')`. -/
def matchesAllWords (recipeIngredient : List Char) (userIngredient : String) :
    Option Bool :=
  jsEvery (fun w => mkWordRegexTest w recipeIngredient)
    (splitSpace (lowerChars userIngredient.data))

/-- The filter callback of `missingIngredients`:
`!ingredients.some(userIngredient => ...)`. -/
def isMissing (ingredients : List String) (recipeIngredient : List Char) :
    Option Bool :=
  match jsSome (fun u => matchesAllWords recipeIngredient u) ingredients with
  | none => none
  | some b => some (!b)

/-- The body of the `recipes.map(recipe => ...)` callback: one annotated
result per catalog recipe (the `...recipe` spread is `toRecipe := recipe`). -/
def annotateRecipe (ingredients : List String) (recipe : Recipe) :
    Option RecipeWithMatch :=
  let recipeIngredients := recipe.ingredients.map fun i => lowerChars i.name.data
  match jsFilter (fun ri => isMissing ingredients ri) recipeIngredients with
  | none => none
  | some missingIngredients =>
    let totalCount := recipeIngredients.length
    let missingCount := missingIngredients.length
    let matchedCount : Int := (totalCount : Int) - (missingCount : Int)
    some { toRecipe := recipe
           missingCount := missingCount
           matchedCount := matchedCount
           totalCount := totalCount
           score := calculateScore matchedCount (totalCount : Int)
           missingIngredients := missingIngredients }

/-- Sign of the sort comparator `(a, b) => b.score - a.score` as JavaScript
evaluates it on the two scores `x = a.score`, `y = b.score`: the sign of
`y - x`, with a `NaN` comparator value coerced to `0` (ES `SortCompare`). -/
def cmpSign (x y : JsNumber) : Int :=
  match x, y with
  | JsNumber.val a, JsNumber.val b => if a < b then 1 else if b < a then -1 else 0
  | JsNumber.nan, _ => 0
  | _, JsNumber.nan => 0
  | JsNumber.inf, JsNumber.inf => 0
  | JsNumber.ninf, JsNumber.ninf => 0
  | JsNumber.inf, _ => -1
  | _, JsNumber.inf => 1
  | JsNumber.ninf, _ => 1
  | _, JsNumber.ninf => -1

/-- `a` may stay before `b` under the comparator: `b.score - a.score <= 0`.
JavaScript's `Array.prototype.sort` is stable (ES2019), and for a consistent
comparator every stable sort produces the same list, modelled below by
`List.insertionSort` over this relation (which places a tie *before* the
tied element already in the sorted suffix, i.e. keeps earlier catalog
entries first). -/
def sortsBefore (a b : RecipeWithMatch) : Prop := cmpSign a.score b.score ≤ 0

instance : DecidableRel sortsBefore := fun _ _ => Int.decLe _ _

/-- `getRecipeMatches` from `recipe-dashboard.tsx`, parametrised by the
component state `ingredients` and the static catalog `recipes`:
`recipes.map(annotate).sort((a, b) => b.score - a.score)`.
`none` is a thrown exception escaping the call. -/
def getRecipeMatches (ingredients : List String) (recipes : List Recipe) :
    Option (List RecipeWithMatch) :=
  match jsMapList (annotateRecipe ingredients) recipes with
  | none => none
  | some mapped => some (List.insertionSort sortsBefore mapped)

/-- Total ("no exception actually thrown") description of the word-boundary
satisfaction test: some user ingredient has all of its space-separated
lower-cased words matching as whole words in the recipe ingredient.  Agrees
with the `Option`-level computation wherever that one returns a value. -/
def wordSatisfied (ingredients : List String) (recipeIngredient : List Char) :
    Bool :=
  ingredients.any fun u =>
    (splitSpace (lowerChars u.data)).all fun w => wbMatch w recipeIngredient

/-! ## The earlier revision (`src/unnamed/part_000`): substring matching -/

/-- The substring matching rule of the earlier revision, line 43:
`ingredients.some(avail => i.includes(avail))`. -/
def includesSatisfied (ingredients : List (List Char))
    (recipeIngredient : List Char) : Bool :=
  ingredients.any fun avail => strIncludes recipeIngredient avail

/-- `missingIngredients` of the earlier revision:
`recipeIngredients.filter(i => !ingredients.some(avail => i.includes(avail)))`. -/
def missingIngredientsV0 (ingredients : List (List Char))
    (recipeIngredients : List (List Char)) : List (List Char) :=
  recipeIngredients.filter fun i => !(includesSatisfied ingredients i)

/-! ## The recipe identifier (both revisions):
`recipe.name.toLowerCase().replace(/\s+/g, '-')` -/

/-- The JavaScript regex class `\s`, restricted to the ASCII range the model
covers (space, tab, line feed, vertical tab, form feed, carriage return). -/
def isJsSpace (c : Char) : Bool :=
  c == ' ' || c == '\t' || c == '\n' || c == '\x0b' || c == '\x0c' || c == '\r'

/-- `replace(/\s+/g, '-')`: the global, greedy regex replace scans left to
right, each match being a maximal nonempty run of whitespace, and substitutes
a single hyphen for it. -/
def collapseRuns : List Char → List Char
  | [] => []
  | c :: cs =>
    if isJsSpace c then '-' :: collapseRuns (cs.dropWhile isJsSpace)
    else c :: collapseRuns cs
termination_by l => l.length
decreasing_by
  · simpa using Nat.lt_succ_of_le (List.dropWhile_sublist isJsSpace).length_le
  · simp

/-- The displayed `Recipe ID` expression:
`recipe.name.toLowerCase().replace(/\s+/g, '-')`. -/
def recipeId (name : String) : String :=
  String.mk (collapseRuns (lowerChars name.data))

/-- The maximal runs of `s` under the whitespace classification: each run is
a maximal nonempty block of consecutive characters of one class. -/
def wsRuns : List Char → List (List Char)
  | [] => []
  | c :: cs =>
    (c :: cs.takeWhile fun d => isJsSpace d == isJsSpace c) ::
      wsRuns (cs.dropWhile fun d => isJsSpace d == isJsSpace c)
termination_by l => l.length
decreasing_by
  simpa using Nat.lt_succ_of_le (List.dropWhile_sublist _).length_le

/-- The specification's derivation, stated in its own words: lower-case the
name, decompose it into maximal runs, replace every whitespace run by a
single hyphen, keep the other runs. -/
def specRecipeId (name : String) : String :=
  String.mk <|
    (wsRuns (lowerChars name.data)).flatMap fun run =>
      if run.any isJsSpace then ['-'] else run

/-! ## Auxiliary definitions used by the statements and proofs -/

/-- Inverse of `splitSpace`: interleave the pieces with single spaces. -/
def joinSpace : List (List Char) → List Char
  | [] => []
  | [w] => w
  | w :: ws => w ++ ' ' :: joinSpace ws

/-- What follows a piece inside `joinSpace`: nothing, or a space and the
rest. -/
def tailJoin : List (List Char) → List Char
  | [] => []
  | w :: ws => ' ' :: joinSpace (w :: ws)

/-- A string made of word characters and spaces only (the shape of ordinary
ingredient names); on such text the word-boundary regex treats every
space-separated word literally and finds it at its own position. -/
def plainChars (s : List Char) : Bool :=
  s.all fun c => isWordChar c || c == ' '

/-- Concrete catalog entries (from the specification's worked example) used
to instantiate the theorems below on closed inputs. -/
def omelette : Recipe :=
  { name := "Omelette", servings := 2, calories := 300, fat := ⟨10, "g"⟩,
    carbs := ⟨2, "g"⟩, protein := ⟨18, "g"⟩,
    ingredients := [⟨"egg", 3, "piece"⟩, ⟨"salt", 1, "tsp"⟩, ⟨"pepper", 1, "tsp"⟩],
    instructions := ["Beat the eggs.", "Cook."] }

def toast : Recipe :=
  { name := "Toast", servings := 1, calories := 150, fat := ⟨5, "g"⟩,
    carbs := ⟨20, "g"⟩, protein := ⟨4, "g"⟩,
    ingredients := [⟨"bread", 2, "slice"⟩, ⟨"butter", 1, "tbsp"⟩],
    instructions := ["Toast the bread.", "Spread the butter."] }

/-- A recipe with an empty ingredient list (`totalCount = 0`). -/
def noIngredientsRecipe : Recipe :=
  { name := "Water", servings := 1, calories := 0, fat := ⟨0, "g"⟩,
    carbs := ⟨0, "g"⟩, protein := ⟨0, "g"⟩,
    ingredients := [], instructions := [] }

/-- A recipe whose single ingredient name holds a non-word character
adjacent to a non-word character, so the word `100%` can never match with a
trailing `\b`. -/
def juiceRecipe : Recipe :=
  { name := "Juice", servings := 1, calories := 110, fat := ⟨0, "g"⟩,
    carbs := ⟨26, "g"⟩, protein := ⟨1, "g"⟩,
    ingredients := [⟨"100% juice", 1, "cup"⟩], instructions := [] }

/-- Expected annotation records for the concrete catalogs above. -/
def omeletteFullMatch : RecipeWithMatch :=
  { toRecipe := omelette, missingCount := 0, matchedCount := 3, totalCount := 3,
    score := JsNumber.val 1, missingIngredients := [] }

def omeletteNoMatch : RecipeWithMatch :=
  { toRecipe := omelette, missingCount := 3, matchedCount := 0, totalCount := 3,
    score := JsNumber.val 0,
    missingIngredients := ["egg".data, "salt".data, "pepper".data] }

def toastNoMatch : RecipeWithMatch :=
  { toRecipe := toast, missingCount := 2, matchedCount := 0, totalCount := 2,
    score := JsNumber.val 0,
    missingIngredients := ["bread".data, "butter".data] }

def toastBreadMatch : RecipeWithMatch :=
  { toRecipe := toast, missingCount := 1, matchedCount := 1, totalCount := 2,
    score := JsNumber.val (1 / 2), missingIngredients := ["butter".data] }

/-! ## Lemmas about the combinators

`agree`-style lemmas: whenever a short-circuiting run returns a value and the
callback agrees with a total function `q` wherever the callback itself
returns a value, the result is the ordinary `any`/`all`/`filter` of `q`
(elements after the decisive one are never evaluated, but they cannot change
an already-decided `any`/`all`).  `total`-style lemmas: a callback that never
throws on the list yields the ordinary result. -/

theorem jsSome_agree {p : α → Option Bool} (q : α → Bool) :
    ∀ {l : List α} {b : Bool}, jsSome p l = some b →
      (∀ a ∈ l, p a = none ∨ p a = some (q a)) → b = l.any q := by
  intro l
  induction l with
  | nil => intro b h _; cases h; simp
  | cons a t ih =>
    intro b h hq
    rcases hq a (by simp) with ha | ha
    · simp [jsSome, ha] at h
    · rw [jsSome, ha] at h
      cases hqa : q a with
      | true => rw [hqa] at h; cases h; simp [hqa]
      | false =>
        rw [hqa] at h
        have := ih h (fun x hx => hq x (by simp [hx]))
        simp [hqa, this]

theorem jsEvery_agree {p : α → Option Bool} {q : α → Bool} :
    ∀ {l : List α} {b : Bool}, jsEvery p l = some b →
      (∀ a ∈ l, p a = none ∨ p a = some (q a)) → b = l.all q := by
  intro l
  induction l with
  | nil => intro b h _; cases h; simp
  | cons a t ih =>
    intro b h hq
    rcases hq a (by simp) with ha | ha
    · simp [jsEvery, ha] at h
    · rw [jsEvery, ha] at h
      cases hqa : q a with
      | false => rw [hqa] at h; cases h; simp [hqa]
      | true =>
        rw [hqa] at h
        have := ih h (fun x hx => hq x (by simp [hx]))
        simp [hqa, this]

theorem jsFilter_agree {p : α → Option Bool} {q : α → Bool} :
    ∀ {l out : List α}, jsFilter p l = some out →
      (∀ a ∈ l, p a = none ∨ p a = some (q a)) → out = l.filter q := by
  intro l
  induction l with
  | nil => intro out h _; cases h; simp
  | cons a t ih =>
    intro out h hq
    rcases hq a (by simp) with ha | ha
    · simp [jsFilter, ha] at h
    · rw [jsFilter, ha] at h
      cases htl : jsFilter p t with
      | none => rw [htl] at h; cases h
      | some rest =>
        rw [htl] at h
        cases h
        have := ih htl (fun x hx => hq x (by simp [hx]))
        cases hqa : q a <;> simp [List.filter, hqa, this]

theorem jsMapList_mem {f : α → Option β} :
    ∀ {l : List α} {out : List β}, jsMapList f l = some out →
      ∀ b ∈ out, ∃ a ∈ l, f a = some b := by
  intro l
  induction l with
  | nil => intro out h b hb; cases h; simp at hb
  | cons a t ih =>
    intro out h b hb
    rw [jsMapList] at h
    cases hfa : f a with
    | none => rw [hfa] at h; cases h
    | some v =>
      rw [hfa] at h
      cases htl : jsMapList f t with
      | none => rw [htl] at h; cases h
      | some rest =>
        rw [htl] at h
        cases h
        rcases List.mem_cons.mp hb with rfl | hb
        · exact ⟨a, by simp, hfa⟩
        · rcases ih htl b hb with ⟨x, hx, hfx⟩
          exact ⟨x, by simp [hx], hfx⟩

theorem jsMapList_map_back {f : α → Option β} {g : β → α}
    (hg : ∀ a b, f a = some b → g b = a) :
    ∀ {l : List α} {out : List β}, jsMapList f l = some out →
      out.map g = l := by
  intro l
  induction l with
  | nil => intro out h; cases h; simp
  | cons a t ih =>
    intro out h
    rw [jsMapList] at h
    cases hfa : f a with
    | none => rw [hfa] at h; cases h
    | some v =>
      rw [hfa] at h
      cases htl : jsMapList f t with
      | none => rw [htl] at h; cases h
      | some rest =>
        rw [htl] at h
        cases h
        simp [hg a v hfa, ih htl]

theorem jsSome_total {p : α → Option Bool} (q : α → Bool) :
    ∀ {l : List α}, (∀ a ∈ l, p a = some (q a)) →
      jsSome p l = some (l.any q) := by
  intro l
  induction l with
  | nil => intro _; rfl
  | cons a t ih =>
    intro h
    rw [jsSome, h a (by simp)]
    cases hqa : q a with
    | true => simp [hqa]
    | false => simp [hqa, ih (fun x hx => h x (by simp [hx]))]

theorem jsEvery_total {p : α → Option Bool} {q : α → Bool} :
    ∀ {l : List α}, (∀ a ∈ l, p a = some (q a)) →
      jsEvery p l = some (l.all q) := by
  intro l
  induction l with
  | nil => intro _; rfl
  | cons a t ih =>
    intro h
    rw [jsEvery, h a (by simp)]
    cases hqa : q a with
    | false => simp [hqa]
    | true => simp [hqa, ih (fun x hx => h x (by simp [hx]))]

theorem jsFilter_total {p : α → Option Bool} (q : α → Bool) :
    ∀ {l : List α}, (∀ a ∈ l, p a = some (q a)) →
      jsFilter p l = some (l.filter q) := by
  intro l
  induction l with
  | nil => intro _; rfl
  | cons a t ih =>
    intro h
    rw [jsFilter, h a (by simp), ih (fun x hx => h x (by simp [hx]))]
    cases hqa : q a <;> simp [List.filter, hqa]

theorem jsMapList_total {f : α → Option β} {g : α → β} :
    ∀ {l : List α}, (∀ a ∈ l, f a = some (g a)) →
      jsMapList f l = some (l.map g) := by
  intro l
  induction l with
  | nil => intro _; rfl
  | cons a t ih =>
    intro h
    rw [jsMapList, h a (by simp), ih (fun x hx => h x (by simp [hx]))]
    simp

/-! ## Lemmas about the matcher -/

theorem mkWordRegexTest_agree (w s : List Char) :
    mkWordRegexTest w s = none ∨ mkWordRegexTest w s = some (wbMatch w s) := by
  unfold mkWordRegexTest
  by_cases h : regexSafeWord w = true <;> simp [h]

theorem matchesAllWords_agree {ri : List Char} {u : String} {b : Bool}
    (h : matchesAllWords ri u = some b) :
    b = (splitSpace (lowerChars u.data)).all fun w => wbMatch w ri :=
  jsEvery_agree h (fun w _ => mkWordRegexTest_agree w ri)

theorem isMissing_agree {ings : List String} {ri : List Char} {b : Bool}
    (h : isMissing ings ri = some b) : b = !(wordSatisfied ings ri) := by
  unfold isMissing at h
  cases hs : jsSome (fun u => matchesAllWords ri u) ings with
  | none => rw [hs] at h; cases h
  | some v =>
    rw [hs] at h
    cases h
    have := jsSome_agree (fun u =>
        (splitSpace (lowerChars u.data)).all fun w => wbMatch w ri) hs
      (fun u _ => by
        cases hm : matchesAllWords ri u with
        | none => exact Or.inl rfl
        | some bv =>
          exact Or.inr (congrArg some (matchesAllWords_agree hm)))
    rw [this]; rfl

/-- Whatever `annotateRecipe` returns is fully characterised by the source
recipe and the total word-boundary satisfaction test. -/
theorem annotateRecipe_some_spec {ings : List String} {r : Recipe}
    {res : RecipeWithMatch} (h : annotateRecipe ings r = some res) :
    res.toRecipe = r ∧
    res.totalCount = r.ingredients.length ∧
    res.missingIngredients = (r.ingredients.map fun i => lowerChars i.name.data).filter
      (fun ri => !(wordSatisfied ings ri)) ∧
    res.missingCount = res.missingIngredients.length ∧
    res.matchedCount = (res.totalCount : Int) - (res.missingCount : Int) ∧
    res.score = calculateScore res.matchedCount (res.totalCount : Int) := by
  simp only [annotateRecipe] at h
  cases hf : jsFilter (fun ri => isMissing ings ri)
      (r.ingredients.map fun i => lowerChars i.name.data) with
  | none => rw [hf] at h; cases h
  | some missing =>
    rw [hf] at h
    cases h
    have hm : missing = (r.ingredients.map fun i => lowerChars i.name.data).filter
        (fun ri => !(wordSatisfied ings ri)) :=
      jsFilter_agree hf (fun ri _ => by
        cases hmi : isMissing ings ri with
        | none => exact Or.inl rfl
        | some bv =>
          exact Or.inr (congrArg some (isMissing_agree hmi)))
    refine ⟨rfl, by simp, hm, rfl, rfl, rfl⟩

theorem getRecipeMatches_some_elim {ings : List String} {catalog : List Recipe}
    {out : List RecipeWithMatch} (h : getRecipeMatches ings catalog = some out) :
    ∃ mapped, jsMapList (annotateRecipe ings) catalog = some mapped ∧
      out = List.insertionSort sortsBefore mapped := by
  unfold getRecipeMatches at h
  cases hm : jsMapList (annotateRecipe ings) catalog with
  | none => rw [hm] at h; cases h
  | some mapped => rw [hm] at h; cases h; exact ⟨mapped, rfl, rfl⟩

/-- Every element of a successful `getRecipeMatches` output is the
annotation of some catalog recipe. -/
theorem mem_getRecipeMatches {ings : List String} {catalog : List Recipe}
    {out : List RecipeWithMatch} (h : getRecipeMatches ings catalog = some out)
    {res : RecipeWithMatch} (hres : res ∈ out) :
    ∃ r ∈ catalog, annotateRecipe ings r = some res := by
  rcases getRecipeMatches_some_elim h with ⟨mapped, hm, rfl⟩
  exact jsMapList_mem hm res ((List.mem_insertionSort sortsBefore).mp hres)

/-! ## Lemmas about the sort -/

theorem cmpSign_self (x : JsNumber) : cmpSign x x = 0 := by
  cases x with
  | val q => simp [cmpSign]
  | nan => rfl
  | inf => rfl
  | ninf => rfl

theorem sortsBefore_of_score_eq {a b : RecipeWithMatch}
    (h : a.score = b.score) : sortsBefore a b := by
  unfold sortsBefore
  rw [h, cmpSign_self]

theorem cmpSign_val_le {qa qb : ℚ} :
    cmpSign (JsNumber.val qa) (JsNumber.val qb) ≤ 0 ↔ qb ≤ qa := by
  unfold cmpSign
  rcases lt_trichotomy qa qb with h | h | h
  · simp [h, not_le.mpr h]
  · simp [h, lt_irrefl]
  · simp [not_lt.mpr h.le, h, h.le]

theorem sortsBefore_total_of_val {a b : RecipeWithMatch} {qa qb : ℚ}
    (ha : a.score = JsNumber.val qa) (hb : b.score = JsNumber.val qb) :
    sortsBefore a b ∨ sortsBefore b a := by
  unfold sortsBefore
  rw [ha, hb, cmpSign_val_le, cmpSign_val_le]
  exact le_total qb qa

theorem sortsBefore_trans_of_val {a b c : RecipeWithMatch} {qa qb qc : ℚ}
    (ha : a.score = JsNumber.val qa) (hb : b.score = JsNumber.val qb)
    (hc : c.score = JsNumber.val qc)
    (hab : sortsBefore a b) (hbc : sortsBefore b c) : sortsBefore a c := by
  unfold sortsBefore at *
  rw [ha, hb, cmpSign_val_le] at hab
  rw [hb, hc, cmpSign_val_le] at hbc
  rw [ha, hc, cmpSign_val_le]
  exact hbc.trans hab

/-- A recipe with a rational score. -/
def hasRatScore (a : RecipeWithMatch) : Prop := ∃ q, a.score = JsNumber.val q

theorem pairwise_orderedInsert {a : RecipeWithMatch} {l : List RecipeWithMatch}
    (hval : ∀ x ∈ a :: l, hasRatScore x)
    (hl : l.Pairwise sortsBefore) :
    (l.orderedInsert sortsBefore a).Pairwise sortsBefore := by
  induction l with
  | nil => simp
  | cons b t ih =>
    rcases hval a (by simp) with ⟨qa, hqa⟩
    rcases hval b (by simp) with ⟨qb, hqb⟩
    rw [List.orderedInsert]
    by_cases hab : sortsBefore a b
    · rw [if_pos hab]
      refine List.Pairwise.cons ?_ hl
      intro x hx
      rcases List.mem_cons.mp hx with rfl | hx
      · exact hab
      · rcases hval x (by simp [hx]) with ⟨qx, hqx⟩
        exact sortsBefore_trans_of_val hqa hqb hqx hab
          ((List.pairwise_cons.mp hl).1 x hx)
    · rw [if_neg hab]
      have hba : sortsBefore b a :=
        (sortsBefore_total_of_val hqa hqb).resolve_left hab
      refine List.Pairwise.cons ?_ (ih (fun x hx => hval x (by
          rcases List.mem_cons.mp hx with rfl | hx
          · simp
          · simp [hx])) (List.pairwise_cons.mp hl).2)
      intro x hx
      rcases (List.mem_orderedInsert sortsBefore).mp hx with rfl | hx
      · exact hba
      · exact (List.pairwise_cons.mp hl).1 x hx

/-- On a list of rational scores the model sort produces a list that is
pairwise ordered by the comparator (descending score). -/
theorem pairwise_insertionSort {l : List RecipeWithMatch}
    (hval : ∀ x ∈ l, hasRatScore x) :
    (List.insertionSort sortsBefore l).Pairwise sortsBefore := by
  induction l with
  | nil => exact List.Pairwise.nil
  | cons a t ih =>
    rw [List.insertionSort]
    refine pairwise_orderedInsert ?_ (ih (fun x hx => hval x (by simp [hx])))
    intro x hx
    rcases List.mem_cons.mp hx with rfl | hx
    · exact hval x (by simp)
    · exact hval x
        (by simp [(List.mem_insertionSort sortsBefore).mp hx])

theorem filter_orderedInsert {p : RecipeWithMatch → Bool}
    {a : RecipeWithMatch} {l : List RecipeWithMatch}
    (h : p a = true → ∀ b ∈ l, p b = true → sortsBefore a b) :
    (l.orderedInsert sortsBefore a).filter p =
      if p a then a :: l.filter p else l.filter p := by
  induction l with
  | nil => cases hpa : p a <;> simp [List.orderedInsert, List.filter, hpa]
  | cons b t ih =>
    rw [List.orderedInsert]
    by_cases hab : sortsBefore a b
    · rw [if_pos hab]
      cases hpa : p a <;> simp [List.filter, hpa]
    · rw [if_neg hab]
      have ihh := ih (fun hpa x hx hpx => h hpa x (by simp [hx]) hpx)
      cases hpa : p a with
      | false =>
        rw [hpa] at ihh
        cases hpb : p b <;>
          simp [List.filter, hpa, hpb, ihh]
      | true =>
        have hpb : p b = false := by
          cases hpb : p b with
          | true => exact absurd (h hpa b (by simp) hpb) hab
          | false => rfl
        rw [hpa] at ihh
        simp [List.filter, hpb, ihh]

/-- Stability of the model sort: among elements the comparator ties (here:
elements of equal score, on which `sortsBefore` is reflexive both ways), the
sorted list preserves the original order — filtering both lists to any
single score value yields identical lists. -/
theorem filter_insertionSort_score (s : JsNumber) :
    ∀ l : List RecipeWithMatch,
      (List.insertionSort sortsBefore l).filter (fun x => decide (x.score = s)) =
        l.filter (fun x => decide (x.score = s)) := by
  intro l
  induction l with
  | nil => rfl
  | cons a t ih =>
    rw [List.insertionSort, filter_orderedInsert, ih]
    · cases hpa : decide (a.score = s) <;> simp [List.filter, hpa]
    · intro hpa b _ hpb
      exact sortsBefore_of_score_eq
        ((of_decide_eq_true hpa).trans (of_decide_eq_true hpb).symm)

/-! ## Lemmas about `splitSpace` and self-matching on plain text -/

theorem splitSpace_ne_nil (s : List Char) : splitSpace s ≠ [] := by
  cases s with
  | nil => simp [splitSpace]
  | cons c cs =>
    rw [splitSpace]
    cases splitSpace cs with
    | nil => simp
    | cons w ws => by_cases h : c = ' ' <;> simp [h]

theorem joinSpace_cons (w : List Char) (ws : List (List Char)) (h : ws ≠ []) :
    joinSpace (w :: ws) = w ++ ' ' :: joinSpace ws := by
  cases ws with
  | nil => exact absurd rfl h
  | cons x xs => rfl

theorem joinSpace_splitSpace : ∀ s : List Char, joinSpace (splitSpace s) = s := by
  intro s
  induction s with
  | nil => rfl
  | cons c cs ih =>
    cases hsp : splitSpace cs with
    | nil => exact absurd hsp (splitSpace_ne_nil cs)
    | cons w ws =>
      rw [hsp] at ih
      simp only [splitSpace, hsp]
      by_cases hc : c = ' '
      · rw [if_pos hc, joinSpace_cons [] (w :: ws) (by simp), ih, hc]
        rfl
      · rw [if_neg hc]
        cases ws with
        | nil => rw [joinSpace]; rw [joinSpace] at ih; rw [ih]
        | cons x xs =>
          rw [joinSpace_cons w (x :: xs) (by simp)] at ih
          rw [joinSpace_cons (c :: w) (x :: xs) (by simp), List.cons_append, ih]

theorem space_not_mem_splitSpace :
    ∀ {s w : List Char}, w ∈ splitSpace s → ' ' ∉ w := by
  intro s
  induction s with
  | nil => intro w hw; simp [splitSpace] at hw; simp [hw]
  | cons c cs ih =>
    intro w hw
    cases hsp : splitSpace cs with
    | nil => exact absurd hsp (splitSpace_ne_nil cs)
    | cons w0 ws =>
      simp only [splitSpace, hsp] at hw
      by_cases hc : c = ' '
      · rw [if_pos hc] at hw
        rcases List.mem_cons.mp hw with rfl | hw
        · simp
        · exact ih (by rw [hsp]; exact hw)
      · rw [if_neg hc] at hw
        rcases List.mem_cons.mp hw with rfl | hw
        · intro hmem
          rcases List.mem_cons.mp hmem with h | h
          · exact hc h.symm
          · exact ih (by rw [hsp]; exact List.mem_cons_self w0 ws) h
        · exact ih (by rw [hsp]; exact List.mem_cons.mpr (Or.inr hw))

theorem tailJoin_shape (L : List (List Char)) :
    tailJoin L = [] ∨ ∃ q, tailJoin L = ' ' :: q := by
  cases L with
  | nil => exact Or.inl rfl
  | cons w ws => exact Or.inr ⟨joinSpace (w :: ws), rfl⟩

theorem joinSpace_append_cons :
    ∀ (L1 : List (List Char)) (w : List Char) (L2 : List (List Char)),
      joinSpace (L1 ++ w :: L2) = w ++ tailJoin L2 ∨
        ∃ p, joinSpace (L1 ++ w :: L2) = p ++ ' ' :: (w ++ tailJoin L2) := by
  intro L1
  induction L1 with
  | nil =>
    intro w L2
    cases L2 with
    | nil => exact Or.inl (by simp [joinSpace, tailJoin])
    | cons x xs =>
      exact Or.inl (by rw [List.nil_append, joinSpace_cons w (x :: xs) (by simp)]; rfl)
  | cons x L1' ih =>
    intro w L2
    rw [List.cons_append, joinSpace_cons x (L1' ++ w :: L2) (by simp)]
    rcases ih w L2 with h | ⟨p, hp⟩
    · exact Or.inr ⟨x, by rw [h]⟩
    · refine Or.inr ⟨x ++ ' ' :: p, ?_⟩
      rw [hp]
      simp

/-- Every piece of `splitSpace s` occurs in `s` flanked by a space or the
respective end of the string. -/
theorem mem_splitSpace_decomp {s w : List Char} (h : w ∈ splitSpace s) :
    ∃ pre post, s = pre ++ w ++ post ∧
      (pre = [] ∨ ∃ p, pre = p ++ [' ']) ∧
      (post = [] ∨ ∃ q, post = ' ' :: q) := by
  rcases List.append_of_mem h with ⟨L1, L2, hL⟩
  have hs : joinSpace (L1 ++ w :: L2) = s := by rw [← hL, joinSpace_splitSpace]
  rcases joinSpace_append_cons L1 w L2 with hj | ⟨p, hj⟩
  · exact ⟨[], tailJoin L2, by rw [← hs, hj]; rfl, Or.inl rfl, tailJoin_shape L2⟩
  · refine ⟨p ++ [' '], tailJoin L2, ?_, Or.inr ⟨p, rfl⟩, tailJoin_shape L2⟩
    rw [← hs, hj]
    simp

theorem mem_of_mem_splitSpace {s w : List Char} (hw : w ∈ splitSpace s)
    {c : Char} (hc : c ∈ w) : c ∈ s := by
  rcases mem_splitSpace_decomp hw with ⟨pre, post, rfl, -, -⟩
  simp [hc]

theorem isWordAt_append (pre rest : List Char) (k : Nat) :
    isWordAt (pre ++ rest) (pre.length + k) = isWordAt rest k := by
  unfold isWordAt
  rw [List.get?_append_right (Nat.le_add_right _ _)]
  simp

/-- The key positional fact: a nonempty all-word-character string `w` placed
between a space (or the start) and a space (or the end) matches its own
word-boundary regex inside the surrounding string. -/
theorem wbMatch_of_decomp {pre w post : List Char} (hw : w ≠ [])
    (hword : ∀ c ∈ w, isWordChar c = true)
    (hpre : pre = [] ∨ ∃ p, pre = p ++ [' '])
    (hpost : post = [] ∨ ∃ q, post = ' ' :: q) :
    wbMatch w (pre ++ w ++ post) = true := by
  rcases List.exists_cons_of_ne_nil hw with ⟨c0, w', rfl⟩
  rw [wbMatch, List.any_eq_true]
  refine ⟨pre.length, List.mem_range.mpr (by simp only [List.length_append]; omega), ?_⟩
  have hocc : occursAt (c0 :: w') (pre ++ (c0 :: w') ++ post) pre.length = true := by
    rw [occursAt, List.append_assoc, List.drop_left, decide_eq_true_iff]
    exact List.take_left _ _
  have hquery : isWordAt (pre ++ (c0 :: w') ++ post) pre.length = true := by
    rw [List.append_assoc, ← Nat.add_zero pre.length, isWordAt_append]
    simpa [isWordAt] using hword c0 (by simp)
  have hleft : (decide (0 < pre.length) &&
      isWordAt (pre ++ (c0 :: w') ++ post) (pre.length - 1)) = false := by
    rcases hpre with rfl | ⟨p, rfl⟩
    · simp
    · have h1 : p.length + 1 - 1 = p.length + 0 := by omega
      have h2 : (p ++ [' ']) ++ (c0 :: w') ++ post = p ++ (' ' :: ((c0 :: w') ++ post)) := by
        simp
      rw [List.length_append, List.length_singleton, h1, h2, isWordAt_append]
      simp [isWordAt, isWordChar]
  have hright : isWordAt (pre ++ (c0 :: w') ++ post)
      (pre.length + (c0 :: w').length) = false := by
    have h2 : pre ++ (c0 :: w') ++ post = (pre ++ (c0 :: w')) ++ post := by simp
    have h3 : pre.length + (c0 :: w').length = (pre ++ (c0 :: w')).length + 0 := by
      simp [List.length_append]
    rw [h2, h3, isWordAt_append]
    rcases hpost with rfl | ⟨q, rfl⟩
    · simp [isWordAt]
    · simp [isWordAt, isWordChar]
  have hlast : isWordAt (pre ++ (c0 :: w') ++ post)
      (pre.length + (c0 :: w').length - 1) = true := by
    have h4 : pre.length + (c0 :: w').length - 1 =
        pre.length + ((c0 :: w').length - 1) := by
      simp only [List.length_cons]; omega
    rw [List.append_assoc, h4, isWordAt_append]
    have hlt : (c0 :: w').length - 1 < (c0 :: w').length := by simp
    have hlt2 : (c0 :: w').length - 1 < ((c0 :: w') ++ post).length := by
      simp only [List.length_append, List.length_cons]; omega
    unfold isWordAt
    rw [List.get?_append (by simpa using hlt), List.get?_eq_get hlt]
    exact hword _ (List.get_mem _ _ _)
  rw [boundaryAt, boundaryAt, hocc, hquery, hleft, hright]
  have hpos : (decide (0 < pre.length + (c0 :: w').length)) = true := by
    simp
  rw [hpos, hlast]
  rfl

theorem boundaryAt_cons_succ {c : Char} {s : List Char} {i : Nat}
    (hc : isWordChar c = false) :
    boundaryAt (c :: s) (i + 1) = boundaryAt s i := by
  unfold boundaryAt
  have h1 : isWordAt (c :: s) (i + 1) = isWordAt s i := rfl
  rw [h1]
  cases i with
  | zero => simp [isWordAt, hc]
  | succ k =>
    have h2 : isWordAt (c :: s) (k + 1) = isWordAt s k := rfl
    simp [h2]

theorem occursAt_nil (s : List Char) (i : Nat) : occursAt [] s i = true := by
  simp [occursAt]

/-- The empty word's pattern `\b\b` behaves as `\b`: it matches anywhere in
a string containing at least one word character. -/
theorem wbMatch_nil {s : List Char} (h : s.any isWordChar = true) :
    wbMatch [] s = true := by
  induction s with
  | nil => simp at h
  | cons c cs ih =>
    cases hc : isWordChar c with
    | true =>
      rw [wbMatch, List.any_eq_true]
      refine ⟨0, List.mem_range.mpr (by simp), ?_⟩
      rw [occursAt_nil, boundaryAt, boundaryAt]
      simp [isWordAt, hc]
    | false =>
      have hcs : cs.any isWordChar = true := by
        rcases List.any_eq_true.mp h with ⟨x, hx, hwx⟩
        rcases List.mem_cons.mp hx with rfl | hx
        · rw [hwx] at hc; cases hc
        · exact List.any_eq_true.mpr ⟨x, hx, hwx⟩
      have hwb := ih hcs
      rw [wbMatch] at hwb
      rcases List.any_eq_true.mp hwb with ⟨i, hi, hcond⟩
      have hb : boundaryAt cs i = true := by
        simpa [occursAt_nil] using hcond
      rw [wbMatch, List.any_eq_true]
      refine ⟨i + 1, List.mem_range.mpr (by
        have := List.mem_range.mp hi; simp at this ⊢; omega), ?_⟩
      simp [occursAt_nil, boundaryAt_cons_succ hc, hb]

theorem words_all_word {s w : List Char} (hp : plainChars s = true)
    (hw : w ∈ splitSpace s) : ∀ c ∈ w, isWordChar c = true := by
  intro c hc
  have hcs : c ∈ s := mem_of_mem_splitSpace hw hc
  have := (List.all_eq_true.mp hp) c hcs
  rcases Bool.or_eq_true_iff.mp this with h | h
  · exact h
  · have hcsp : c = ' ' := by simpa using h
    exact absurd (by rw [← hcsp]; exact hc) (space_not_mem_splitSpace hw)

theorem meta_not_wordChar : ∀ c ∈ regexMetaChars, isWordChar c = false := by
  decide

theorem regexSafe_of_words {s w : List Char} (hp : plainChars s = true)
    (hw : w ∈ splitSpace s) : regexSafeWord w = true := by
  rw [regexSafeWord, List.all_eq_true]
  intro c hc
  cases hcont : regexMetaChars.contains c with
  | false => rfl
  | true =>
    have hword := words_all_word hp hw c hc
    rw [meta_not_wordChar c (List.mem_of_elem_eq_true hcont)] at hword
    cases hword

/-- On plain text with at least one word character, every space-separated
word of the text matches its own word-boundary regex against the text. -/
theorem selfMatch {s : List Char} (hp : plainChars s = true)
    (hword : s.any isWordChar = true) :
    ∀ w ∈ splitSpace s, wbMatch w s = true := by
  intro w hw
  cases w with
  | nil => exact wbMatch_nil hword
  | cons c0 w' =>
    rcases mem_splitSpace_decomp hw with ⟨pre, post, rfl, hpre, hpost⟩
    exact wbMatch_of_decomp (by simp) (words_all_word hp hw) hpre hpost

/-! ## Totality: safe inputs never throw -/

theorem matchesAllWords_total {u : String}
    (h : (splitSpace (lowerChars u.data)).all regexSafeWord = true)
    (ri : List Char) :
    matchesAllWords ri u =
      some ((splitSpace (lowerChars u.data)).all fun w => wbMatch w ri) :=
  jsEvery_total fun w hw => by
    rw [mkWordRegexTest, if_pos (List.all_eq_true.mp h w hw)]

theorem isMissing_total {ings : List String}
    (h : ∀ u ∈ ings, (splitSpace (lowerChars u.data)).all regexSafeWord = true)
    (ri : List Char) :
    isMissing ings ri = some (!(wordSatisfied ings ri)) := by
  unfold isMissing
  rw [jsSome_total (fun u =>
    (splitSpace (lowerChars u.data)).all fun w => wbMatch w ri)
    (fun u hu => matchesAllWords_total (h u hu) ri)]
  rfl

theorem jsMapList_exists {f : α → Option β} :
    ∀ {l : List α}, (∀ a ∈ l, ∃ b, f a = some b) →
      ∃ out, jsMapList f l = some out := by
  intro l
  induction l with
  | nil => intro _; exact ⟨[], rfl⟩
  | cons a t ih =>
    intro h
    rcases h a (by simp) with ⟨b, hb⟩
    rcases ih (fun x hx => h x (by simp [hx])) with ⟨out, hout⟩
    exact ⟨b :: out, by rw [jsMapList, hb, hout]⟩

theorem annotateRecipe_total {ings : List String}
    (h : ∀ u ∈ ings, (splitSpace (lowerChars u.data)).all regexSafeWord = true)
    (r : Recipe) : ∃ res, annotateRecipe ings r = some res := by
  simp only [annotateRecipe]
  rw [jsFilter_total (fun ri => !(wordSatisfied ings ri))
    (fun ri _ => isMissing_total h ri)]
  exact ⟨_, rfl⟩

theorem getRecipeMatches_total (ings : List String)
    (h : ∀ u ∈ ings, (splitSpace (lowerChars u.data)).all regexSafeWord = true)
    (catalog : List Recipe) : ∃ out, getRecipeMatches ings catalog = some out := by
  unfold getRecipeMatches
  rcases jsMapList_exists (fun r _ => annotateRecipe_total h r) with ⟨mapped, hm⟩
  exact ⟨_, by rw [hm]⟩

/-! ## Score lemmas -/

theorem calculateScore_zero_zero : calculateScore 0 0 = JsNumber.nan := rfl

theorem calculateScore_val {m t : Int} (h : t ≠ 0) :
    calculateScore m t = JsNumber.val ((m : ℚ) / (t : ℚ)) := by
  rw [calculateScore, if_neg h]

/-! ## Exact match on plain ingredient names -/

theorem matchesAllWords_self {u : String} {s : List Char}
    (hu : lowerChars u.data = s) (hp : plainChars s = true)
    (hword : s.any isWordChar = true) : matchesAllWords s u = some true := by
  have hsafe : (splitSpace (lowerChars u.data)).all regexSafeWord = true := by
    rw [hu]
    exact List.all_eq_true.mpr fun w hw => regexSafe_of_words hp hw
  rw [matchesAllWords_total hsafe s, hu]
  exact congrArg some (List.all_eq_true.mpr (selfMatch hp hword))

theorem wordSatisfied_self {ings : List String} {s : List Char}
    (hp : plainChars s = true) (hword : s.any isWordChar = true)
    {u : String} (hu : u ∈ ings) (hlow : lowerChars u.data = s) :
    wordSatisfied ings s = true := by
  rw [wordSatisfied, List.any_eq_true]
  refine ⟨u, hu, ?_⟩
  rw [hlow]
  exact List.all_eq_true.mpr (selfMatch hp hword)

/-! ## The recipe identifier: scan equals run decomposition -/

theorem collapseRuns_keep_nonspace :
    ∀ l : List Char, collapseRuns l =
      (l.takeWhile fun c => !isJsSpace c) ++
        collapseRuns (l.dropWhile fun c => !isJsSpace c) := by
  intro l
  induction l with
  | nil => rfl
  | cons c cs ih =>
    cases hc : isJsSpace c with
    | true => simp [List.takeWhile_cons, List.dropWhile_cons, hc]
    | false =>
      simp only [collapseRuns, List.takeWhile_cons, List.dropWhile_cons, hc,
        Bool.not_false, if_false, if_true, Bool.false_eq_true, List.cons_append]
      exact congrArg (c :: ·) ih

theorem collapseRuns_eq_runs : ∀ l : List Char,
    collapseRuns l =
      (wsRuns l).flatMap fun run => if run.any isJsSpace then ['-'] else run := by
  have H : ∀ n (l : List Char), l.length ≤ n →
      collapseRuns l =
        (wsRuns l).flatMap fun run => if run.any isJsSpace then ['-'] else run := by
    intro n
    induction n with
    | zero =>
      intro l hl
      rw [List.length_eq_zero.mp (Nat.le_zero.mp hl)]
      simp [collapseRuns, wsRuns]
    | succ n ih =>
      intro l hl
      cases l with
      | nil => simp [collapseRuns, wsRuns]
      | cons c cs =>
        cases hc : isJsSpace c with
        | true =>
          have hpred : (fun d => isJsSpace d == true) = isJsSpace := by
            funext d; rw [beq_true]
          have hdrop : (cs.dropWhile isJsSpace).length ≤ n :=
            le_trans (List.dropWhile_sublist isJsSpace).length_le
              (by simpa using hl)
          simp only [collapseRuns, wsRuns, hc, hpred, if_true, List.flatMap_cons,
            List.any_cons, Bool.true_or, List.cons_append, List.nil_append]
          exact congrArg ('-' :: ·) (ih _ hdrop)
        | false =>
          have hpred : (fun d => isJsSpace d == false) = fun d => !isJsSpace d := by
            funext d; rw [beq_false]
          have hdrop : (cs.dropWhile fun d => !isJsSpace d).length ≤ n :=
            le_trans (List.dropWhile_sublist _).length_le (by simpa using hl)
          have hany : ((c :: cs.takeWhile fun d => !isJsSpace d).any isJsSpace) =
              false := by
            rw [List.any_eq_false]
            intro x hx
            rcases List.mem_cons.mp hx with rfl | hx
            · simp [hc]
            · simpa using List.mem_takeWhile_imp hx
          simp only [collapseRuns, wsRuns, hc, hpred, List.flatMap_cons, hany,
            Bool.false_eq_true, if_false, List.cons_append]
          rw [collapseRuns_keep_nonspace cs, ih _ hdrop]
  exact fun l => H l.length l le_rfl

/-- The displayed recipe identifier is exactly the specified derivation:
lower-case the name, then replace every maximal whitespace run by one
hyphen.  Both sides are functions of the name alone, so the derivation is
deterministic. -/
theorem recipeId_eq_specRecipeId (name : String) :
    recipeId name = specRecipeId name :=
  congrArg String.mk (collapseRuns_eq_runs (lowerChars name.data))

/-! ## Claim theorems -/

/-- C1: for every recipe catalog and every user ingredient set, every result
produced by `getRecipeMatches` satisfies
`matchedCount + missingCount = totalCount`, and `totalCount` equals the
length of that recipe's ingredient list. -/
theorem matched_plus_missing_eq_total (ings : List String)
    (catalog : List Recipe) (out : List RecipeWithMatch)
    (h : getRecipeMatches ings catalog = some out) :
    ∀ res ∈ out,
      res.matchedCount + (res.missingCount : Int) = (res.totalCount : Int) ∧
      res.totalCount = res.ingredients.length := by
  intro res hres
  rcases mem_getRecipeMatches h hres with ⟨r, hr, ha⟩
  rcases annotateRecipe_some_spec ha with ⟨hrec, htot, -, -, hmatch, -⟩
  refine ⟨by rw [hmatch]; ring, ?_⟩
  rw [show res.toRecipe.ingredients = r.ingredients from by rw [hrec]]
  exact htot

theorem matched_plus_missing_eq_total_witness :
    omeletteFullMatch.matchedCount + (omeletteFullMatch.missingCount : Int) =
      (omeletteFullMatch.totalCount : Int) ∧
    omeletteFullMatch.totalCount = omeletteFullMatch.ingredients.length :=
  matched_plus_missing_eq_total ["egg", "salt", "pepper"] [omelette, toast]
    [omeletteFullMatch, toastNoMatch] (by with_unfolding_all decide)
    omeletteFullMatch (by with_unfolding_all decide)

/-- C2 (counterexample to the claim as stated): on the user ingredient `(`,
`new RegExp("\\b(\\b")` throws a `SyntaxError` (modelled by `none`), so the
matching computation does not terminate normally on arbitrary strings. -/
theorem getRecipeMatches_throws_on_paren :
    getRecipeMatches ["("] [omelette] = none := by decide

/-- C2 (amended): for every user ingredient set whose space-separated words
contain no regex metacharacters, and every catalog, `getRecipeMatches`
terminates normally and never raises an exception. -/
theorem getRecipeMatches_no_throw_of_safe (ings : List String)
    (catalog : List Recipe)
    (h : ∀ u ∈ ings, (splitSpace (lowerChars u.data)).all regexSafeWord = true) :
    ∃ out, getRecipeMatches ings catalog = some out :=
  getRecipeMatches_total ings h catalog

theorem getRecipeMatches_no_throw_of_safe_witness :
    ∃ out, getRecipeMatches ["egg"] [omelette, toast] = some out :=
  getRecipeMatches_no_throw_of_safe ["egg"] [omelette, toast] (by decide)

/-- C3: the claim (score `0`, not `NaN`, on an empty ingredient list) is
what the specification demands, but the code computes `0 / 0 = NaN`: the
recipe with no ingredients gets score `NaN`. -/
theorem score_nan_on_empty_ingredients :
    (getRecipeMatches ["egg"] [noIngredientsRecipe]).map
      (fun out => out.map fun res => res.score) = some [JsNumber.nan] := by
  with_unfolding_all decide

/-- C4: every successful `getRecipeMatches` result over a catalog of
recipes with nonempty ingredient lists is sorted by score in descending
order (pairwise, later rational scores are `≤` earlier ones), and recipes
with equal scores appear in their original catalog order (filtering the
output and the unsorted annotation list to any fixed score value yields the
same list). -/
theorem sorted_desc_and_stable (ings : List String) (catalog : List Recipe)
    (out : List RecipeWithMatch)
    (h : getRecipeMatches ings catalog = some out)
    (hne : ∀ r ∈ catalog, r.ingredients ≠ []) :
    out.Pairwise (fun a b => ∀ qa qb, a.score = JsNumber.val qa →
      b.score = JsNumber.val qb → qb ≤ qa) ∧
    ∀ mapped, jsMapList (annotateRecipe ings) catalog = some mapped →
      ∀ sc, out.filter (fun res => decide (res.score = sc)) =
        mapped.filter (fun res => decide (res.score = sc)) := by
  rcases getRecipeMatches_some_elim h with ⟨mapped, hm, rfl⟩
  constructor
  · have hval : ∀ x ∈ mapped, hasRatScore x := by
      intro x hx
      rcases jsMapList_mem hm x hx with ⟨r, hr, ha⟩
      rcases annotateRecipe_some_spec ha with ⟨-, htot, -, -, -, hscore⟩
      have hne0 : (x.totalCount : Int) ≠ 0 := by
        rw [htot]
        simpa using hne r hr
      exact ⟨_, by rw [hscore, calculateScore_val hne0]⟩
    refine (pairwise_insertionSort hval).imp ?_
    intro a b hab qa qb hqa hqb
    rw [sortsBefore, hqa, hqb, cmpSign_val_le] at hab
    exact hab
  · intro m hmm sc
    have : m = mapped := by
      rw [hm] at hmm
      exact (Option.some_injective _ hmm).symm
    rw [this]
    exact filter_insertionSort_score sc mapped

theorem sorted_desc_and_stable_witness :
    ([toastBreadMatch, omeletteNoMatch].Pairwise
      (fun a b => ∀ qa qb, a.score = JsNumber.val qa →
        b.score = JsNumber.val qb → qb ≤ qa)) ∧
    [toastBreadMatch, omeletteNoMatch].filter
        (fun res => decide (res.score = JsNumber.val 0)) =
      [omeletteNoMatch, toastBreadMatch].filter
        (fun res => decide (res.score = JsNumber.val 0)) :=
  have h := sorted_desc_and_stable ["bread"] [omelette, toast]
    [toastBreadMatch, omeletteNoMatch] (by with_unfolding_all decide) (by decide)
  ⟨h.1, h.2 [omeletteNoMatch, toastBreadMatch] (by with_unfolding_all decide)
    (JsNumber.val 0)⟩

/-- C5 (counterexample to the claim as stated): the user ingredient set
equal (lower-cased) to the full ingredient list of `juiceRecipe` still
leaves `100% juice` missing — the word `100%` has no word boundary after
`%` — so `missingCount = 1` and the score is `0`, not `1`. -/
theorem exact_match_fails_on_nonword_name :
    (["100% juice"].map fun u => lowerChars u.data) =
      (juiceRecipe.ingredients.map fun i => lowerChars i.name.data) ∧
    juiceRecipe.ingredients ≠ [] ∧
    (getRecipeMatches ["100% juice"] [juiceRecipe]).map
      (fun out => out.map fun res => (res.missingCount, res.score)) =
      some [(1, JsNumber.val 0)] := by
  refine ⟨by decide, by decide, by with_unfolding_all decide⟩

/-- C5 (amended): for every recipe with a nonempty ingredient list whose
(lower-cased) ingredient names consist of word characters and spaces with
at least one word character, if the user ingredient set equals the recipe's
ingredient-name list up to letter case, then the recipe's result has
`missingCount = 0` and linear score `1`. -/
theorem exact_match_score_one (ings : List String) (r : Recipe)
    (hne : r.ingredients ≠ [])
    (heq : ings.map (fun u => lowerChars u.data) =
      r.ingredients.map fun i => lowerChars i.name.data)
    (hplain : ∀ i ∈ r.ingredients, plainChars (lowerChars i.name.data) = true ∧
      (lowerChars i.name.data).any isWordChar = true) :
    ∃ res, annotateRecipe ings r = some res ∧
      res.missingCount = 0 ∧ res.score = JsNumber.val 1 := by
  have hsafe : ∀ u ∈ ings,
      (splitSpace (lowerChars u.data)).all regexSafeWord = true := by
    intro u hu
    have hmem : lowerChars u.data ∈
        r.ingredients.map fun i => lowerChars i.name.data := by
      rw [← heq]
      exact List.mem_map_of_mem _ hu
    rcases List.mem_map.mp hmem with ⟨i, hi, hlow⟩
    rcases hplain i hi with ⟨hp, -⟩
    rw [hlow] at hp
    exact List.all_eq_true.mpr fun w hw => regexSafe_of_words hp hw
  have hsat : ∀ ri ∈ r.ingredients.map fun i => lowerChars i.name.data,
      wordSatisfied ings ri = true := by
    intro ri hri
    rcases List.mem_map.mp hri with ⟨i, hi, rfl⟩
    have hmem : lowerChars i.name.data ∈ ings.map fun u => lowerChars u.data := by
      rw [heq]
      exact List.mem_map_of_mem _ hi
    rcases List.mem_map.mp hmem with ⟨u, hu, hlow⟩
    rcases hplain i hi with ⟨hp, hword⟩
    exact wordSatisfied_self hp hword hu hlow
  have hfil : (r.ingredients.map fun i => lowerChars i.name.data).filter
      (fun ri => !(wordSatisfied ings ri)) = [] := by
    rw [List.filter_eq_nil]
    intro ri hri
    simp [hsat ri hri]
  simp only [annotateRecipe]
  rw [jsFilter_total (fun ri => !(wordSatisfied ings ri))
    (fun ri _ => isMissing_total hsafe ri), hfil]
  refine ⟨_, rfl, rfl, ?_⟩
  have hn0 : ((r.ingredients.map fun i => lowerChars i.name.data).length : Int) ≠ 0 := by
    simp only [List.length_map, ne_eq, Nat.cast_eq_zero, List.length_eq_zero]
    exact hne
  simp only [List.length_nil, Nat.cast_zero, sub_zero]
  rw [calculateScore_val hn0]
  have : ((((r.ingredients.map fun i => lowerChars i.name.data).length : Int) : ℚ)) ≠ 0 := by
    exact_mod_cast hn0
  rw [div_self this]

theorem exact_match_score_one_witness :
    ∃ res, annotateRecipe ["egg", "salt", "pepper"] omelette = some res ∧
      res.missingCount = 0 ∧ res.score = JsNumber.val 1 :=
  exact_match_score_one ["egg", "salt", "pepper"] omelette (by decide)
    (by decide) (by decide)

/-- C6: with an empty user ingredient set no recipe ingredient is
satisfied: every result has `missingCount = totalCount` and
`matchedCount = 0`. -/
theorem empty_ingredients_all_missing (catalog : List Recipe) :
    ∃ out, getRecipeMatches [] catalog = some out ∧
      ∀ res ∈ out, res.missingCount = res.totalCount ∧ res.matchedCount = 0 := by
  rcases getRecipeMatches_total [] (by simp) catalog with ⟨out, hout⟩
  refine ⟨out, hout, ?_⟩
  intro res hres
  rcases mem_getRecipeMatches hout hres with ⟨r, hr, ha⟩
  rcases annotateRecipe_some_spec ha with ⟨-, htot, hmiss, hcount, hmatch, -⟩
  have hall : res.missingIngredients =
      r.ingredients.map fun i => lowerChars i.name.data := by
    rw [hmiss]
    simp [wordSatisfied]
  have hmc : res.missingCount = res.totalCount := by
    rw [hcount, hall, htot]
    simp
  refine ⟨hmc, ?_⟩
  rw [hmatch, hmc]
  ring

theorem empty_ingredients_all_missing_witness :
    ∃ out, getRecipeMatches [] [omelette, toast] = some out ∧
      ∀ res ∈ out, res.missingCount = res.totalCount ∧ res.matchedCount = 0 :=
  empty_ingredients_all_missing [omelette, toast]

/-- C7: user ingredient `egg` against recipe ingredient `eggs`: the
substring strategy of the earlier revision counts it satisfied, the
word-boundary strategy counts it missing, so the two strategies disagree on
this input. -/
theorem substring_vs_word_boundary :
    includesSatisfied ["egg".data] "eggs".data = true ∧
    missingIngredientsV0 ["egg".data] ["eggs".data] = [] ∧
    wordSatisfied ["egg"] "eggs".data = false ∧
    isMissing ["egg"] "eggs".data = some true ∧
    (includesSatisfied ["egg".data] "eggs".data !=
      wordSatisfied ["egg"] "eggs".data) = true := by
  refine ⟨by decide, by decide, by decide, by decide, by decide⟩

/-- C8: the displayed recipe identifier
`name.toLowerCase().replace(/\s+/g, '-')` equals the specified derivation —
the lower-cased name with every maximal whitespace run replaced by a single
hyphen — and, being a function of the name, is deterministic. -/
theorem recipeId_matches_spec (name : String) :
    recipeId name = specRecipeId name :=
  recipeId_eq_specRecipeId name

/-- C9: a successful `getRecipeMatches` returns exactly one result per
catalog recipe — stripping the five added match fields gives a permutation
of the catalog, so no recipe is dropped, duplicated or invented and every
original `Recipe` field is unchanged. -/
theorem output_is_annotated_permutation (ings : List String)
    (catalog : List Recipe) (out : List RecipeWithMatch)
    (h : getRecipeMatches ings catalog = some out) :
    (out.map fun res => res.toRecipe).Perm catalog := by
  rcases getRecipeMatches_some_elim h with ⟨mapped, hm, rfl⟩
  have hmap : mapped.map (fun res => res.toRecipe) = catalog :=
    jsMapList_map_back (fun a b hab => (annotateRecipe_some_spec hab).1) hm
  have hperm :=
    (List.perm_insertionSort sortsBefore mapped).map fun res => res.toRecipe
  rw [hmap] at hperm
  exact hperm

theorem output_is_annotated_permutation_witness :
    ([omeletteFullMatch, toastNoMatch].map fun res => res.toRecipe).Perm
      [omelette, toast] :=
  output_is_annotated_permutation ["egg", "salt", "pepper"] [omelette, toast]
    [omeletteFullMatch, toastNoMatch] (by with_unfolding_all decide)

/-- C10: in every result, `missingIngredients` is exactly the subsequence
of the recipe's lower-cased ingredient names unsatisfied under the
word-boundary rule, in original ingredient order (a `filter` of the ordered
name list), and `missingCount` is its length. -/
theorem missing_is_ordered_filter (ings : List String) (catalog : List Recipe)
    (out : List RecipeWithMatch)
    (h : getRecipeMatches ings catalog = some out) :
    ∀ res ∈ out,
      res.missingIngredients =
        (res.ingredients.map fun i => lowerChars i.name.data).filter
          (fun ri => !(wordSatisfied ings ri)) ∧
      res.missingCount = res.missingIngredients.length := by
  intro res hres
  rcases mem_getRecipeMatches h hres with ⟨r, hr, ha⟩
  rcases annotateRecipe_some_spec ha with ⟨hrec, -, hmiss, hcount, -, -⟩
  refine ⟨?_, hcount⟩
  rw [show res.toRecipe.ingredients = r.ingredients from by rw [hrec]]
  exact hmiss

theorem missing_is_ordered_filter_witness :
    toastNoMatch.missingIngredients =
      (toastNoMatch.ingredients.map fun i => lowerChars i.name.data).filter
        (fun ri => !(wordSatisfied ["egg", "salt", "pepper"] ri)) ∧
    toastNoMatch.missingCount = toastNoMatch.missingIngredients.length :=
  missing_is_ordered_filter ["egg", "salt", "pepper"] [omelette, toast]
    [omeletteFullMatch, toastNoMatch] (by with_unfolding_all decide) toastNoMatch
    (by with_unfolding_all decide)

end RecipeDash
